import Mathlib

/-!
Verification of the Fama-French 1993 portfolio-construction pipeline
(`src/calc_Fama_French_1993.py`) against its specification.

Conventions of the shallow embedding:

* A float column that can hold NaN is modelled as `Option ℚ`, with `none`
  standing for NaN (pandas missing value).  IEEE comparison semantics are
  embedded explicitly: any comparison involving NaN is `false`
  (`oLt`, `oLe`, `nanEq` below).
* Calendar dates at month granularity are modelled as natural numbers
  `t = 12 * year + (month - 1)`, so July of year `y` is `12 * y + 6`,
  June of year `y` is `12 * y + 5`, and `pandas.tseries.offsets.MonthEnd(k)`
  is addition/subtraction of `k`.
* DataFrames are lists of structures; `groupby`/`merge` become explicit
  `filter`/`flatMap` over those lists, keeping the source's join keys.
-/

/-- IEEE-style `<` on maybe-NaN floats: any comparison with NaN is false. -/
def oLt (a b : Option ℚ) : Bool :=
  match a, b with
  | some x, some y => decide (x < y)
  | _, _ => false

/-- IEEE-style `≤` on maybe-NaN floats: any comparison with NaN is false. -/
def oLe (a b : Option ℚ) : Bool :=
  match a, b with
  | some x, some y => decide (x ≤ y)
  | _, _ => false

/-- IEEE-style `==` on maybe-NaN floats: NaN compares unequal to everything,
including NaN itself (this is what `row["me"] == np.nan` evaluates in the
source: always `False`). -/
def nanEq (a b : Option ℚ) : Bool :=
  match a, b with
  | some x, some y => decide (x = y)
  | _, _ => false

/-- pandas `Series.sum()` with its default `skipna=True`: missing entries are
skipped. -/
def nanSum (l : List (Option ℚ)) : ℚ :=
  (l.filterMap id).sum

/-- Float multiplication with NaN propagation. -/
def nanMul (a b : Option ℚ) : Option ℚ :=
  match a, b with
  | some x, some y => some (x * y)
  | _, _ => none

theorem nanEq_none (a : Option ℚ) : nanEq a none = false := by
  cases a <;> rfl

theorem oLt_pos_some (q : ℚ) : oLt (some 0) (some q) = decide (0 < q) := rfl

/-! ### Month-granularity calendar arithmetic -/

/-- Calendar year of a month-index date (`jdate.dt.year`). -/
def yearOf (t : ℕ) : ℕ := t / 12

/-- `datadate + YearEnd(0)`: roll forward to the December of the same year. -/
def yearend (t : ℕ) : ℕ := (t / 12) * 12 + 11

/-- Formation date of a fundamentals record:
`yearend + MonthEnd(6)`, i.e. June of the following calendar year. -/
def jdateOf (t : ℕ) : ℕ := yearend t + 6

/-- `ffdate = jdate + MonthEnd(-6)`; its calendar year (`ffdate.dt.year`). -/
def ffyearN (t : ℕ) : ℕ := (t - 6) / 12

/-- Month (1-12) of `ffdate = jdate + MonthEnd(-6)`; `ffmonth = 1` marks the
July rebalancing month. -/
def ffmonthN (t : ℕ) : ℕ := (t - 6) % 12 + 1

/-! ### Stage 1: Fundamentals Preparation
(`calc_book_equity_and_years_in_compustat`) -/

/-- One raw Compustat fundamentals row (the columns the book-equity
computation reads). -/
structure CompRaw where
  gvkey : ℕ
  datadate : ℕ
  seq : Option ℚ
  txditc : Option ℚ
  pstkrv : Option ℚ
  pstkl : Option ℚ
  pstk : Option ℚ
deriving Repr, DecidableEq

/-- The preferred-stock value `ps`: `pstkrv` if present, else `pstkl`, else
`pstk`, else `0` (the three `np.where(isnull, ...)` steps in the source). -/
def ps_of (r : CompRaw) : ℚ :=
  (((r.pstkrv).orElse (fun _ => r.pstkl)).orElse (fun _ => r.pstk)).getD 0

/-- Book equity before the positivity clamp:
`seq + txditc.fillna(0) - ps`.  NaN `seq` propagates to NaN. -/
def be_raw (r : CompRaw) : Option ℚ :=
  r.seq.map (fun s => s + r.txditc.getD 0 - ps_of r)

/-- Book equity `be`: `np.where(be > 0, be, np.nan)` — keep only strictly
positive values, everything else (including NaN) becomes NaN. -/
def be_of (r : CompRaw) : Option ℚ :=
  match be_raw r with
  | some b => if 0 < b then some b else none
  | none => none

/-! ### Stage 3: Market Equity Aggregator (`calculate_market_equity`) -/

/-- A filtered CRSP security-month row entering `calculate_market_equity`
(price and share count non-missing). -/
structure CrspMe where
  permno : ℕ
  permco : ℕ
  jdate : ℕ
  mthprc : ℚ
  shrout : ℚ
deriving Repr, DecidableEq

/-- Security-level market equity: `permno_me = mthprc * shrout`
(the source takes the signed price, no absolute value). -/
def permno_me (r : CrspMe) : ℚ := r.mthprc * r.shrout

/-- Output row of the aggregator: one security-month carrying company-level
market equity `me`. -/
structure MeRow where
  permno : ℕ
  permco : ℕ
  jdate : ℕ
  me : ℚ
deriving Repr, DecidableEq

/-- All securities sharing `(jdate, permco)` with `r` (the groupby group). -/
def grpOf (rows : List CrspMe) (r : CrspMe) : List CrspMe :=
  rows.filter (fun s => s.jdate = r.jdate && s.permco = r.permco)

/-- Largest security-level market equity in a group
(`groupby(["jdate","permco"])["permno_me"].max()`). -/
def maxPme (g : List CrspMe) : ℚ :=
  match g.map permno_me with
  | [] => 0
  | x :: xs => xs.foldl max x

/-- `calculate_market_equity`: keep exactly the rows whose `permno_me` equals
the `(jdate, permco)` group maximum (the inner merge with `permno_max_me`),
and attach the group sum as company market equity `me` (the inner merge with
`permco_me`). -/
def calculate_market_equity (rows : List CrspMe) : List MeRow :=
  rows.filterMap (fun r =>
    if permno_me r = maxPme (grpOf rows r) then
      some ⟨r.permno, r.permco, r.jdate, ((grpOf rows r).map permno_me).sum⟩
    else
      none)

/-! ### Stage 8 (firm counts): `create_factors_from_portfolios` -/

/-- The six pivoted per-month firm counts, one per size/value bucket. -/
structure NfirmRow where
  sl : ℕ
  sme : ℕ
  sh : ℕ
  bl : ℕ
  bme : ℕ
  bh : ℕ
deriving Repr, DecidableEq

/-- The derived firm-count columns of one month of `ff_nfirms`. -/
structure NfirmOut where
  smbN : ℕ
  hmlN : ℕ
  totalN : ℕ
deriving Repr, DecidableEq

/-- Firm-count synthesis from `create_factors_from_portfolios`:
`H = SH+BH`, `L = SL+BL`, `HML = H+L`, `B = BL+BME+BH`, `S = SL+SME+SH`,
`SMB = B+S`, `TOTAL = SMB`. -/
def nfirms_of (c : NfirmRow) : NfirmOut :=
  let hN := c.sh + c.bh
  let lN := c.sl + c.bl
  let bN := c.bl + c.bme + c.bh
  let sN := c.sl + c.sme + c.sh
  { smbN := bN + sN, hmlN := hN + lN, totalN := bN + sN }

/-! ### Stage 4: Temporal Aligner (`use_dec_market_equity`)

The weight computation is per security (`permno`); we embed one security's
chronologically sorted monthly series as a list and index it positionally
(`cumcount` of the source is exactly the list index). -/

/-- One security-month of the market-equity panel entering
`use_dec_market_equity`: month-end date, company market equity `me`, and the
ex-dividend return `mthretx`. -/
structure MRow where
  jdate : ℕ
  me : ℚ
  retx : ℚ
deriving Repr, DecidableEq

/-- Default row used by out-of-range positional access (never reached under
the index bounds carried by the theorems). -/
def mrow0 : MRow := ⟨0, 0, 0⟩

/-- Positional access to the series' month-end date. -/
def jdAt (rows : List MRow) (i : ℕ) : ℕ := (rows.getD i mrow0).jdate

/-- Positional access to the series' market equity. -/
def meAt (rows : List MRow) (i : ℕ) : ℚ := (rows.getD i mrow0).me

/-- Positional access to the series' ex-dividend return. -/
def retxAt (rows : List MRow) (i : ℕ) : ℚ := (rows.getD i mrow0).retx

/-- `cumretx`: cumulative product of `1 + retx` within the
`(permno, ffyear)` group up to and including row `i`
(`groupby(["permno","ffyear"])["1+retx"].cumprod()`). -/
def cumretx (rows : List MRow) (i : ℕ) : ℚ :=
  ((List.range (i + 1)).filter
      (fun j => ffyearN (jdAt rows j) = ffyearN (jdAt rows i))).foldl
    (fun acc j => acc * (1 + retxAt rows j)) 1

/-- `L_cumretx`: `cumretx` shifted by one row within the security
(`groupby(["permno"])["cumretx"].shift(1)`); missing at the first row. -/
def lagCumretx (rows : List MRow) (i : ℕ) : Option ℚ :=
  if i = 0 then none else some (cumretx rows (i - 1))

/-- `L_me`: market equity shifted by one row within the security; at the
security's very first row (`count == 0`) the source substitutes
`me / (1 + retx)`, backing the lag out of the same month's observation. -/
def lagMe (rows : List MRow) (i : ℕ) : ℚ :=
  if i = 0 then meAt rows 0 / (1 + retxAt rows 0) else meAt rows (i - 1)

/-- `mebase`: the July (`ffmonth == 1`) row's `L_me` for a given formation
year, merged back onto the whole series by `(permno, ffyear)`. -/
def mebase (rows : List MRow) (y : ℕ) : Option ℚ :=
  ((List.range rows.length).find?
      (fun j => ffmonthN (jdAt rows j) = 1 && ffyearN (jdAt rows j) = y)).map
    (lagMe rows)

/-- Formation weight `wt`:
`np.where(ffmonth == 1, L_me, mebase * L_cumretx)`. -/
def wt (rows : List MRow) (i : ℕ) : Option ℚ :=
  if ffmonthN (jdAt rows i) = 1 then
    some (lagMe rows i)
  else
    (mebase rows (ffyearN (jdAt rows i))).bind
      (fun mb => (lagCumretx rows i).map (fun lc => mb * lc))

/-! ### Stage 5: Cross-Source Linker (`merge_CRSP_and_Compustat`)

We embed the part that decides which fundamentals rows survive the link-table
validity filter (`ccm1`/`ccm2` in the source). -/

/-- A prepared fundamentals row entering the linker. -/
structure CompRow where
  gvkey : ℕ
  datadate : ℕ
  be : Option ℚ
  count : ℕ
deriving Repr, DecidableEq

/-- One CRSP/Compustat link-table row; a missing `linkenddt` means the link
is still active. -/
structure CcmRow where
  gvkey : ℕ
  permno : ℕ
  linkdt : ℕ
  linkenddt : Option ℕ
deriving Repr, DecidableEq

/-- A fundamentals row matched to a security through a valid link. -/
structure Ccm2Row where
  gvkey : ℕ
  permno : ℕ
  datadate : ℕ
  jdate : ℕ
  be : Option ℚ
  count : ℕ
deriving Repr, DecidableEq

/-- The link-validity filter of `merge_CRSP_and_Compustat`: join fundamentals
to the link table on `gvkey` (left join; unmatched rows carry NaN link dates
and fail every date comparison, so the `flatMap` over matching links is
equivalent), fill a missing `linkenddt` with today's date, compute the
formation date `jdate = datadate + YearEnd(0) + MonthEnd(6)`, and keep the
pairs with `linkdt ≤ jdate ≤ linkenddt`. -/
def merge_CRSP_and_Compustat_links
    (comp : List CompRow) (ccm : List CcmRow) (today : ℕ) : List Ccm2Row :=
  comp.flatMap (fun c =>
    (ccm.filter (fun l => l.gvkey = c.gvkey)).filterMap (fun l =>
      let jd := jdateOf c.datadate
      if l.linkdt ≤ jd ∧ jd ≤ l.linkenddt.getD today then
        some ⟨c.gvkey, l.permno, c.datadate, jd, c.be, c.count⟩
      else
        none))

/-! ### Stage 6: Breakpoint & Bucket Assigner (`assign_size_and_bm_portfolios`)

June part: NYSE breakpoints per formation date, then per-row labels. -/

/-- Insert into a sorted list (ascending). -/
def insertSorted (x : ℚ) : List ℚ → List ℚ
  | [] => [x]
  | y :: ys => if x ≤ y then x :: y :: ys else y :: insertSorted x ys

/-- Sort a list of rationals ascending (insertion sort). -/
def sortQ (l : List ℚ) : List ℚ := l.foldr insertSorted []

/-- The q-th quantile with pandas' default linear interpolation between order
statistics (`Series.quantile` / `describe(percentiles=...)`; `Series.median`
is the 1/2-quantile): with sorted values `x_0 ≤ ... ≤ x_{n-1}` and
`h = q * (n-1)`, the result is `x_⌊h⌋ + (h - ⌊h⌋) * (x_⌊h⌋₊₁ - x_⌊h⌋)`;
`none` on an empty list.  (`interpolate` is the interpolation step on the
sorted values.) -/
def interpolate (s : List ℚ) (h : ℚ) : ℚ :=
  let i : ℕ := h.floor.toNat
  let x0 := s.getD i 0
  let x1 := s.getD (i + 1) x0
  x0 + (h - (h.floor : ℚ)) * (x1 - x0)

def percentileQ (l : List ℚ) (q : ℚ) : Option ℚ :=
  match sortQ l with
  | [] => none
  | x :: xs => some (interpolate (x :: xs) (q * (((x :: xs).length : ℚ) - 1)))

/-- One June formation record entering `assign_size_and_bm_portfolios`
(the columns the labeling reads). -/
structure JuneRow where
  permno : ℕ
  jdate : ℕ
  primaryexch : String
  me : Option ℚ
  beme : Option ℚ
  count : ℕ
deriving Repr, DecidableEq

/-- The NYSE breakpoint-eligibility predicate:
`primaryexch == "N" & beme > 0 & me > 0 & count >= 1`. -/
def nyse_eligible (r : JuneRow) : Bool :=
  r.primaryexch = "N" && oLt (some 0) r.beme && oLt (some 0) r.me
    && decide (1 ≤ r.count)

/-- The bucket-assignment eligibility guard used by the three `np.where`
calls: `beme > 0 & me > 0 & count >= 1`. -/
def eligible (r : JuneRow) : Bool :=
  oLt (some 0) r.beme && oLt (some 0) r.me && decide (1 ≤ r.count)

/-- NYSE breakpoints for one formation date: median market equity and the
30th/70th percentiles of book-to-market over the NYSE-eligible subset
(`nyse_sz` / `nyse_bm` in the source); `none` when the date has no
NYSE-eligible rows (the left merge then leaves NaN breakpoints). -/
def nyse_breaks (ccm_jun : List JuneRow) (d : ℕ) : Option (ℚ × ℚ × ℚ) :=
  let grp := (ccm_jun.filter nyse_eligible).filter (fun r => r.jdate = d)
  match percentileQ (grp.filterMap (fun r => r.me)) (1 / 2),
      percentileQ (grp.filterMap (fun r => r.beme)) (3 / 10),
      percentileQ (grp.filterMap (fun r => r.beme)) (7 / 10) with
  | some a, some b, some c => some (a, b, c)
  | _, _, _ => none

/-- `size_bucket` from the source.  The first branch is
`row["me"] == np.nan`, which under IEEE float equality is always false
(`nanEq _ none = false`), so a NaN `me` falls through to the comparison,
which is also false, yielding `"B"`. -/
def size_bucket (me sizemedn : Option ℚ) : String :=
  if nanEq me none then ""
  else if oLe me sizemedn then "S"
  else "B"

/-- `book_to_market_bucket` from the source; the first branch is the chained
comparison `0 <= beme <= bm30`. -/
def book_to_market_bucket (beme bm30 bm70 : Option ℚ) : String :=
  if oLe (some 0) beme && oLe beme bm30 then "L"
  else if oLe beme bm70 then "ME"
  else if oLt bm70 beme then "H"
  else ""

/-- One labeled June record (`ccm1_jun` row). -/
structure JuneLabeled where
  permno : ℕ
  jdate : ℕ
  sizemedn : Option ℚ
  bm30 : Option ℚ
  bm70 : Option ℚ
  szport : String
  bmport : String
  posbm : ℕ
  nonmissport : ℕ
deriving Repr, DecidableEq

/-- Label one June record: merge the breakpoints for its formation date
(left merge on `jdate`), then apply the two guarded bucket functions and the
`posbm` / `nonmissport` indicator columns. -/
def june_label_row (ccm_jun : List JuneRow) (r : JuneRow) : JuneLabeled :=
  let bks := nyse_breaks ccm_jun r.jdate
  let sm := bks.map (fun t => t.1)
  let b30 := bks.map (fun t => t.2.1)
  let b70 := bks.map (fun t => t.2.2)
  let sz := if eligible r then size_bucket r.me sm else ""
  let bm := if eligible r then book_to_market_bucket r.beme b30 b70 else ""
  { permno := r.permno, jdate := r.jdate,
    sizemedn := sm, bm30 := b30, bm70 := b70,
    szport := sz, bmport := bm,
    posbm := if eligible r then 1 else 0,
    nonmissport := if bm ≠ "" then 1 else 0 }

/-- The June half of `assign_size_and_bm_portfolios`: label every record. -/
def assign_june_labels (ccm_jun : List JuneRow) : List JuneLabeled :=
  ccm_jun.map (june_label_row ccm_jun)

/-! ### Stage 6, monthly half: propagate June labels to the monthly panel -/

/-- One monthly record of `crsp3` (the columns the merge and the final
eligibility gate read). -/
structure MonthRow3 where
  permno : ℕ
  jdate : ℕ
  mthret : Option ℚ
  wt : Option ℚ
deriving Repr, DecidableEq

/-- A monthly record after the left merge with the June labels; `none`
labels mean the merge found no June row for `(permno, ffyear)`. -/
structure LabeledMonth where
  m : MonthRow3
  lab : Option JuneLabeled
deriving Repr, DecidableEq

/-- The June rows matching a monthly record under the merge key
`(permno, ffyear)`; the June side's `ffyear` is `jdate.dt.year` of the June
formation date, the monthly side's is `ffdate.dt.year`. -/
def june_matches (june : List JuneLabeled) (p t : ℕ) : List JuneLabeled :=
  june.filter (fun j => j.permno = p && yearOf j.jdate = ffyearN t)

/-- Left-merge one monthly record with the June labels: one output row per
matching June row, or a single unlabeled row when none matches. -/
def attach_june (june : List JuneLabeled) (r : MonthRow3) : List LabeledMonth :=
  match june_matches june r.permno r.jdate with
  | [] => [⟨r, none⟩]
  | j :: js => (j :: js).map (fun x => ⟨r, some x⟩)

/-- `ccm3`: the monthly panel left-merged with the June labels on
`(permno, ffyear)`. -/
def assign_monthly (crsp3 : List MonthRow3) (june : List JuneLabeled) :
    List LabeledMonth :=
  crsp3.flatMap (attach_june june)

/-- `ccm4`: the final eligibility gate
`(wt > 0) & (posbm == 1) & (nonmissport == 1)`; a row whose merge found no
June label carries NaN indicators and fails the gate. -/
def ccm4_of (crsp3 : List MonthRow3) (june : List JuneLabeled) :
    List LabeledMonth :=
  (assign_monthly crsp3 june).filter (fun x =>
    match x.lab with
    | some j => oLt (some 0) x.m.wt && j.posbm = 1 && j.nonmissport = 1
    | none => false)

/-! ### Stage 7: Portfolio Aggregator (`wavg` / `create_fama_french_portfolios`) -/

/-- `wavg`: value-weighted average `(d * w).sum() / w.sum()` over one group,
with pandas NaN-skipping sums.  When the total weight is zero the source's
float division produces a non-finite value (NaN, or ±inf when the NaN-skipped
numerator is nonzero) and the `except ZeroDivisionError` guard never fires;
either way no finite return is produced, modelled as `none`. -/
def wavg (g : List (Option ℚ × Option ℚ)) : Option ℚ :=
  let den := nanSum (g.map (fun p => p.2))
  if den = 0 then none
  else some (nanSum (g.map (fun p => nanMul p.1 p.2)) / den)

/-- Size label of a merged monthly row (NaN for an unmatched merge). -/
def szportOf (x : LabeledMonth) : String :=
  match x.lab with
  | some j => j.szport
  | none => ""

/-- Value label of a merged monthly row (NaN for an unmatched merge). -/
def bmportOf (x : LabeledMonth) : String :=
  match x.lab with
  | some j => j.bmport
  | none => ""

/-- One `(month, size label, value label)` group of the aggregation
`ccm4.groupby(["jdate","szport","bmport"])`. -/
def vw_group (ccm4 : List LabeledMonth) (d : ℕ) (sz bm : String) :
    List LabeledMonth :=
  ccm4.filter (fun x => x.m.jdate = d && szportOf x = sz && bmportOf x = bm)

/-- The value-weighted return of one bucket-month:
`wavg(group, "mthret", "wt")`. -/
def vwret_of (ccm4 : List LabeledMonth) (d : ℕ) (sz bm : String) : Option ℚ :=
  wavg ((vw_group ccm4 d sz bm).map (fun x => (x.m.mthret, x.m.wt)))

/-! ## Claims -/

/-- **C6** — For every month of the firm-count table, the SMB firm count
equals `S + B` (the sums of the three small-bucket and the three big-bucket
counts), and the TOTAL firm count equals that same SMB count, i.e. the sum of
all six bucket counts; on the fixture `{SL:2, SME:3, SH:1, BL:4, BME:2, BH:5}`
both SMB and TOTAL equal 17. -/
theorem nfirms_smb_total_identity :
    (∀ c : NfirmRow,
      (nfirms_of c).smbN
          = (c.bl + c.bme + c.bh) + (c.sl + c.sme + c.sh)
        ∧ (nfirms_of c).totalN = (nfirms_of c).smbN
        ∧ (nfirms_of c).totalN = c.sl + c.sme + c.sh + c.bl + c.bme + c.bh)
    ∧ (nfirms_of ⟨2, 3, 1, 4, 2, 5⟩).smbN = 17
    ∧ (nfirms_of ⟨2, 3, 1, 4, 2, 5⟩).totalN = 17 := by
  refine ⟨fun c => ⟨rfl, rfl, ?_⟩, rfl, rfl⟩
  simp only [nfirms_of]
  omega

/-- **C4** — For every fundamentals record: the preferred-stock value is the
redemption value when present, else the liquidation value, else the par
value, else zero; book equity is `stockholders_equity + deferred_tax_credit
(missing treated as 0) - preferred_stock_value`, kept only when the sum is
strictly positive and set to undefined otherwise; hence `be` is either
undefined or strictly positive. -/
theorem book_equity_characterization :
    ∀ r : CompRaw,
      (∀ v, r.pstkrv = some v → ps_of r = v)
      ∧ (r.pstkrv = none → ∀ v, r.pstkl = some v → ps_of r = v)
      ∧ (r.pstkrv = none → r.pstkl = none → ∀ v, r.pstk = some v → ps_of r = v)
      ∧ (r.pstkrv = none → r.pstkl = none → r.pstk = none → ps_of r = 0)
      ∧ (r.seq = none → be_of r = none)
      ∧ (∀ s, r.seq = some s →
          (0 < s + r.txditc.getD 0 - ps_of r →
              be_of r = some (s + r.txditc.getD 0 - ps_of r))
          ∧ (s + r.txditc.getD 0 - ps_of r ≤ 0 → be_of r = none))
      ∧ (be_of r = none ∨ ∃ b, be_of r = some b ∧ 0 < b) := by
  intro r
  refine ⟨?_, ?_, ?_, ?_, ?_, ?_, ?_⟩
  · intro v hv; simp [ps_of, hv]
  · intro h0 v hv; simp [ps_of, h0, hv]
  · intro h0 h1 v hv; simp [ps_of, h0, h1, hv]
  · intro h0 h1 h2; simp [ps_of, h0, h1, h2]
  · intro h; simp [be_of, be_raw, h]
  · intro s hs
    constructor
    · intro hpos; simp [be_of, be_raw, hs, hpos]
    · intro hle; simp [be_of, be_raw, hs, not_lt_of_le hle]
  · cases hb : be_raw r with
    | none => left; simp [be_of, hb]
    | some b =>
      by_cases hpos : 0 < b
      · right; exact ⟨b, by simp [be_of, hb, hpos], hpos⟩
      · left; simp [be_of, hb, hpos]

/-- Concrete instantiation of `book_equity_characterization`: a record with
`seq = 10`, missing `txditc` and `pstkrv`, `pstkl = 3`, `pstk = 99` gets
preferred stock 3 and book equity 7. -/
theorem book_equity_characterization_witness :
    ps_of ⟨0, 0, some 10, none, none, some 3, some 99⟩ = 3
    ∧ be_of ⟨0, 0, some 10, none, none, some 3, some 99⟩ = some 7 := by
  have h := book_equity_characterization ⟨0, 0, some 10, none, none, some 3, some 99⟩
  have hps : ps_of ⟨0, 0, some 10, none, none, some 3, some 99⟩ = 3 :=
    h.2.1 rfl 3 rfl
  have hbe := (h.2.2.2.2.2.1 10 rfl).1
  rw [hps] at hbe
  refine ⟨hps, ?_⟩
  have h7 := hbe (by norm_num)
  norm_num at h7
  exact h7

/-- **C8 counterexample** — A fundamentals record whose formation date `d`
equals the link's end date is retained by the code (closed upper bound),
while `d ∈ [link_start, link_end)` is false: the claim's half-open interval
does not describe the code.  Concretely: `datadate` December of year 0
(month-index 11) gives formation date 17 (June of year 1); a link with
`linkdt = 17` and `linkenddt = 17` retains the record although `17 < 17`
fails. -/
theorem link_interval_counterexample :
    merge_CRSP_and_Compustat_links
        [⟨5, 11, some 3, 2⟩] [⟨5, 9, 17, some 17⟩] 1000
      = [⟨5, 9, 11, 17, some 3, 2⟩]
    ∧ ¬ (jdateOf 11 < (some 17 : Option ℕ).getD 1000) := by
  exact ⟨rfl, by decide⟩

/-- **C8 (amended)** — A fundamentals record is matched to a security and
retained for formation date `d = datadate + YearEnd(0) + MonthEnd(6)`
exactly when `d` lies within the link's **closed** validity interval
`[link_start_date, link_end_date]`, where a missing link end date defaults
to the current date; records with no link satisfying the bounds simply
produce no output row (the function is total — dropped, not an error). -/
theorem link_retention_closed_interval
    (comp : List CompRow) (ccm : List CcmRow) (today : ℕ) (r : Ccm2Row) :
    r ∈ merge_CRSP_and_Compustat_links comp ccm today
      ↔ ∃ c ∈ comp, ∃ l ∈ ccm, l.gvkey = c.gvkey
          ∧ l.linkdt ≤ jdateOf c.datadate
          ∧ jdateOf c.datadate ≤ l.linkenddt.getD today
          ∧ r = ⟨c.gvkey, l.permno, c.datadate, jdateOf c.datadate,
                  c.be, c.count⟩ := by
  simp only [merge_CRSP_and_Compustat_links, List.mem_flatMap,
    List.mem_filterMap, List.mem_filter]
  constructor
  · rintro ⟨c, hc, l, ⟨hl, hkey⟩, hif⟩
    split at hif
    · rename_i hbounds
      exact ⟨c, hc, l, hl, by simpa using hkey, hbounds.1, hbounds.2,
        (Option.some_inj.mp hif).symm⟩
    · exact absurd hif (by simp)
  · rintro ⟨c, hc, l, hl, hkey, h1, h2, hr⟩
    exact ⟨c, hc, l, ⟨hl, by simpa using hkey⟩, by simp [h1, h2, hr]⟩

/-! ### Bucket-label lemmas (claims C2, C3) -/

theorem size_bucket_some (m s : ℚ) :
    (size_bucket (some m) (some s) = "S" ↔ m ≤ s)
    ∧ (size_bucket (some m) (some s) = "B" ↔ s < m) := by
  by_cases h : m ≤ s
  · constructor
    · simp [size_bucket, nanEq, oLe, h]
    · simp [size_bucket, nanEq, oLe, h, not_lt_of_le h]
  · constructor
    · simp [size_bucket, nanEq, oLe, h]
    · simp [size_bucket, nanEq, oLe, h, lt_of_not_le h]

theorem bm_bucket_some (v b30 b70 : ℚ) (hv : 0 ≤ v) (hbb : b30 ≤ b70) :
    (book_to_market_bucket (some v) (some b30) (some b70) = "L" ↔ v ≤ b30)
    ∧ (book_to_market_bucket (some v) (some b30) (some b70) = "ME"
        ↔ b30 < v ∧ v ≤ b70)
    ∧ (book_to_market_bucket (some v) (some b30) (some b70) = "H"
        ↔ b70 < v) := by
  by_cases h1 : v ≤ b30
  · have h2 : v ≤ b70 := le_trans h1 hbb
    refine ⟨by simp [book_to_market_bucket, oLe, oLt, hv, h1], ?_, ?_⟩
    · simp [book_to_market_bucket, oLe, oLt, hv, h1, not_lt_of_le h1]
    · simp [book_to_market_bucket, oLe, oLt, hv, h1, not_lt_of_le h2]
  · by_cases h2 : v ≤ b70
    · refine ⟨?_, ?_, ?_⟩
      · simp [book_to_market_bucket, oLe, oLt, hv, h1, h2]
      · simp [book_to_market_bucket, oLe, oLt, hv, h1, h2, lt_of_not_le h1]
      · simp [book_to_market_bucket, oLe, oLt, hv, h1, h2, not_lt_of_le h2]
    · refine ⟨?_, ?_, ?_⟩
      · simp [book_to_market_bucket, oLe, oLt, hv, h1, h2, lt_of_not_le h2]
      · simp [book_to_market_bucket, oLe, oLt, hv, h1, h2, lt_of_not_le h2]
      · simp [book_to_market_bucket, oLe, oLt, hv, h1, h2, lt_of_not_le h2]

theorem june_label_row_bmport_elig (inp : List JuneRow) (r : JuneRow)
    (s b30 b70 : ℚ) (hbk : nyse_breaks inp r.jdate = some (s, b30, b70))
    (helig : eligible r = true) :
    (june_label_row inp r).bmport
      = book_to_market_bucket r.beme (some b30) (some b70) := by
  simp [june_label_row, hbk, helig]

theorem june_label_row_szport_elig (inp : List JuneRow) (r : JuneRow)
    (s b30 b70 : ℚ) (hbk : nyse_breaks inp r.jdate = some (s, b30, b70))
    (helig : eligible r = true) :
    (june_label_row inp r).szport = size_bucket r.me (some s) := by
  simp [june_label_row, hbk, helig]

theorem june_label_row_inelig (inp : List JuneRow) (r : JuneRow)
    (helig : eligible r = false) :
    (june_label_row inp r).szport = "" ∧ (june_label_row inp r).bmport = "" := by
  simp [june_label_row, helig]

theorem eligible_of (r : JuneRow) (v : ℚ) (hv : r.beme = some v) (hvpos : 0 < v)
    (hme : oLt (some 0) r.me = true) (hcount : 1 ≤ r.count) :
    eligible r = true := by
  simp only [eligible, hv, hme, oLt_pos_some]
  simp [hvpos, hcount]

/-- **C2 (amended)** — With the June-record eligibility guard of the code
(`beme > 0`, `me > 0`, `count ≥ 1`) and defined, ordered breakpoints, the
value label is "L" exactly when `beme ≤ bm30`, "ME" exactly when
`bm30 < beme ≤ bm70`, and "H" exactly when `beme > bm70`; any record failing
the guard — in particular one with zero, negative or missing book-to-market —
receives the empty value label. -/
theorem value_label_trichotomy (inp : List JuneRow) (r : JuneRow)
    (s b30 b70 : ℚ) (hbk : nyse_breaks inp r.jdate = some (s, b30, b70))
    (hbb : b30 ≤ b70) :
    (∀ v : ℚ, r.beme = some v → 0 < v → oLt (some 0) r.me = true →
        1 ≤ r.count →
      ((june_label_row inp r).bmport = "L" ↔ v ≤ b30)
      ∧ ((june_label_row inp r).bmport = "ME" ↔ b30 < v ∧ v ≤ b70)
      ∧ ((june_label_row inp r).bmport = "H" ↔ b70 < v))
    ∧ (eligible r = false → (june_label_row inp r).bmport = "") := by
  constructor
  · intro v hv hvpos hme hcount
    have helig := eligible_of r v hv hvpos hme hcount
    rw [june_label_row_bmport_elig inp r s b30 b70 hbk helig, hv]
    exact bm_bucket_some v b30 b70 (le_of_lt hvpos) hbb
  · intro helig
    exact (june_label_row_inelig inp r helig).2

/-- **C3 (amended)** — With the June-record eligibility guard of the code
(`beme > 0`, `me > 0`, `count ≥ 1`) and a defined size breakpoint, the size
label is "S" exactly when `me ≤ sizemedn` and "B" exactly when
`me > sizemedn`; any record failing the guard — in particular one with
missing/NaN or non-positive market equity — receives the empty size label. -/
theorem size_label_dichotomy (inp : List JuneRow) (r : JuneRow)
    (s b30 b70 : ℚ) (hbk : nyse_breaks inp r.jdate = some (s, b30, b70)) :
    (∀ m : ℚ, r.me = some m → oLt (some 0) r.beme = true → 0 < m →
        1 ≤ r.count →
      ((june_label_row inp r).szport = "S" ↔ m ≤ s)
      ∧ ((june_label_row inp r).szport = "B" ↔ s < m))
    ∧ (eligible r = false → (june_label_row inp r).szport = "")
    ∧ (r.me = none → (june_label_row inp r).szport = "") := by
  refine ⟨?_, ?_, ?_⟩
  · intro m hm hbeme hmpos hcount
    have helig : eligible r = true := by
      simp only [eligible, hbeme, hm, oLt_pos_some]
      simp [hmpos, hcount]
    rw [june_label_row_szport_elig inp r s b30 b70 hbk helig, hm]
    exact size_bucket_some m s
  · intro helig
    exact (june_label_row_inelig inp r helig).1
  · intro hm
    have helig : eligible r = false := by
      simp [eligible, hm, oLt]
    exact (june_label_row_inelig inp r helig).1

/-! ### Percentile evaluation helpers -/

theorem ratFloor_eq (q : ℚ) (z : ℤ) (h1 : (z : ℚ) ≤ q) (h2 : q < z + 1) :
    q.floor = z := by
  rw [Rat.floor_def', ← Rat.floor_def]
  exact Int.floor_eq_iff.mpr ⟨h1, h2⟩

theorem interpolate_eval (s : List ℚ) (h : ℚ) (z : ℤ) (i : ℕ)
    (hz : h.floor = z) (hi : z.toNat = i) :
    interpolate s h
      = s.getD i 0
        + (h - (z : ℚ)) * (s.getD (i + 1) (s.getD i 0) - s.getD i 0) := by
  simp only [interpolate, hz, hi]

theorem insertSorted_ne_nil (x : ℚ) (s : List ℚ) : insertSorted x s ≠ [] := by
  cases s with
  | nil => simp [insertSorted]
  | cons y ys =>
    simp only [insertSorted]
    split <;> simp

theorem sortQ_eq_nil_iff (l : List ℚ) : sortQ l = [] ↔ l = [] := by
  cases l with
  | nil => simp [sortQ]
  | cons x xs =>
    simp only [sortQ, List.foldr_cons]
    exact ⟨fun h => absurd h (insertSorted_ne_nil x _), fun h => by simp at h⟩

theorem percentileQ_isSome (l : List ℚ) (q : ℚ) (hl : l ≠ []) :
    ∃ v, percentileQ l q = some v := by
  unfold percentileQ
  cases hs : sortQ l with
  | nil => exact absurd ((sortQ_eq_nil_iff l).mp hs) hl
  | cons x xs => exact ⟨_, rfl⟩

theorem oLt_zero_some (b : Option ℚ) (h : oLt (some 0) b = true) :
    ∃ y, b = some y ∧ 0 < y := by
  cases b with
  | none => simp [oLt] at h
  | some y => exact ⟨y, rfl, by simpa [oLt] using h⟩

/-- **C10** — The breakpoints attached to every June record are the median
market equity and the 30th/70th percentiles of book-to-market computed over
exactly the subset of June records with the same formation date satisfying
`exchange == NYSE ∧ book-to-market > 0 ∧ market equity > 0 ∧
observation count ≥ 1` (with pandas' linear-interpolation quantiles). -/
theorem nyse_breakpoints_spec (inp : List JuneRow) (r : JuneRow)
    (grp : List JuneRow)
    (hgrp : grp = inp.filter (fun s => decide (s.jdate = r.jdate)
        && (s.primaryexch = "N" && oLt (some 0) s.beme && oLt (some 0) s.me
            && decide (1 ≤ s.count)))) :
    (june_label_row inp r).sizemedn
        = percentileQ (grp.filterMap (fun s => s.me)) (1 / 2)
    ∧ (june_label_row inp r).bm30
        = percentileQ (grp.filterMap (fun s => s.beme)) (3 / 10)
    ∧ (june_label_row inp r).bm70
        = percentileQ (grp.filterMap (fun s => s.beme)) (7 / 10) := by
  have hg : (inp.filter nyse_eligible).filter (fun s => s.jdate = r.jdate)
      = grp := by
    rw [List.filter_filter, hgrp]
    simp only [nyse_eligible]
  by_cases hne : grp = []
  · have hb : nyse_breaks inp r.jdate = none := by
      simp only [nyse_breaks, hg, hne, List.filterMap_nil]
      rfl
    simp [june_label_row, hb, hne, percentileQ, sortQ]
  · obtain ⟨hd, tl, hcons⟩ := List.exists_cons_of_ne_nil hne
    have hdmem : hd ∈ inp.filter nyse_eligible := by
      have : hd ∈ grp := by rw [hcons]; exact List.mem_cons_self _ _
      rw [← hg] at this
      exact (List.mem_filter.mp this).1
    have helig : nyse_eligible hd = true := (List.mem_filter.mp hdmem).2
    obtain ⟨m, hm, _⟩ : ∃ y, hd.me = some y ∧ 0 < y := by
      apply oLt_zero_some
      simp only [nyse_eligible, Bool.and_eq_true] at helig
      exact helig.1.2
    obtain ⟨v, hv, _⟩ : ∃ y, hd.beme = some y ∧ 0 < y := by
      apply oLt_zero_some
      simp only [nyse_eligible, Bool.and_eq_true] at helig
      exact helig.1.1.2
    have hme_ne : grp.filterMap (fun s => s.me) ≠ [] := by
      rw [hcons, List.filterMap_cons, hm]
      simp
    have hbeme_ne : grp.filterMap (fun s => s.beme) ≠ [] := by
      rw [hcons, List.filterMap_cons, hv]
      simp
    obtain ⟨v1, hv1⟩ := percentileQ_isSome _ (1 / 2) hme_ne
    obtain ⟨v2, hv2⟩ := percentileQ_isSome _ (3 / 10) hbeme_ne
    obtain ⟨v3, hv3⟩ := percentileQ_isSome _ (7 / 10) hbeme_ne
    have hb : nyse_breaks inp r.jdate = some (v1, v2, v3) := by
      simp only [nyse_breaks, hg, hv1, hv2, hv3]
    refine ⟨?_, ?_, ?_⟩
    · rw [hv1]; simp [june_label_row, hb]
    · rw [hv2]; simp [june_label_row, hb]
    · rw [hv3]; simp [june_label_row, hb]

/-! ### Concrete June fixtures -/

/-- Four NYSE-eligible June records at formation date 5 (June, year 0) with
market equities 10, 20, 30, 40 and book-to-market ratios 1, 1, 2, 2. -/
def fxJune : List JuneRow :=
  [⟨11, 5, "N", some 10, some 1, 1⟩,
   ⟨12, 5, "N", some 20, some 1, 1⟩,
   ⟨13, 5, "N", some 30, some 2, 1⟩,
   ⟨14, 5, "N", some 40, some 2, 1⟩]

/-- The first fixture record (NYSE, `me = 10`, `beme = 1`, `count = 1`). -/
def fxSmall : JuneRow := ⟨11, 5, "N", some 10, some 1, 1⟩

/-- A record with book-to-market exactly 0 (otherwise eligible). -/
def fxBeme0 : JuneRow := ⟨20, 5, "N", some 5, some 0, 1⟩

/-- A record with observation count 0 (otherwise eligible, `me = 5`). -/
def fxCount0 : JuneRow := ⟨21, 5, "N", some 5, some 1, 0⟩

/-- The fixture June table: the four NYSE-eligible records plus the two
ineligible ones. -/
def fxAll : List JuneRow := fxJune ++ [fxBeme0, fxCount0]

theorem percentile_fx_median : percentileQ [10, 20, 30, 40] (1 / 2) = some 25 := by
  have hs : sortQ [10, 20, 30, 40] = [10, 20, 30, 40] := rfl
  simp only [percentileQ, hs]
  norm_num
  rw [interpolate_eval _ _ 1 1 (ratFloor_eq _ 1 (by norm_num) (by norm_num)) rfl]
  norm_num

theorem percentile_fx_bm30 : percentileQ [1, 1, 2, 2] (3 / 10) = some 1 := by
  have hs : sortQ [1, 1, 2, 2] = [1, 1, 2, 2] := rfl
  simp only [percentileQ, hs]
  norm_num
  rw [interpolate_eval _ _ 0 0 (ratFloor_eq _ 0 (by norm_num) (by norm_num)) rfl]
  norm_num

theorem percentile_fx_bm70 : percentileQ [1, 1, 2, 2] (7 / 10) = some 2 := by
  have hs : sortQ [1, 1, 2, 2] = [1, 1, 2, 2] := rfl
  simp only [percentileQ, hs]
  norm_num
  rw [interpolate_eval _ _ 2 2 (ratFloor_eq _ 2 (by norm_num) (by norm_num)) rfl]
  norm_num

theorem fx_breaks : nyse_breaks fxAll 5 = some (25, 1, 2) := by
  have hgrp : (fxAll.filter nyse_eligible).filter (fun r => r.jdate = 5)
      = fxJune := by rfl
  have hme : fxJune.filterMap (fun r => r.me) = [10, 20, 30, 40] := rfl
  have hbeme : fxJune.filterMap (fun r => r.beme) = [1, 1, 2, 2] := rfl
  simp only [nyse_breaks, hgrp, hme, hbeme,
    percentile_fx_median, percentile_fx_bm30, percentile_fx_bm70]

/-- Concrete instantiation of `nyse_breakpoints_spec` (the spec's fixture):
with NYSE-eligible market equities `[10, 20, 30, 40]` the size breakpoint
attached to a June record is their median, 25. -/
theorem nyse_breakpoints_spec_witness :
    (june_label_row fxAll fxSmall).sizemedn = some 25 := by
  have h := nyse_breakpoints_spec fxAll fxSmall fxJune (by rfl)
  rw [h.1, show fxJune.filterMap (fun s => s.me) = [10, 20, 30, 40] from rfl]
  exact percentile_fx_median

/-- **C2 counterexample** — A June record with book-to-market exactly 0
(market equity 5, count 1, breakpoints `bm30 = 1`, `bm70 = 2`) satisfies
`0 ≤ beme ≤ bm30`, so the claim assigns it "L"; the code's guard `beme > 0`
fails and it receives the empty value label instead. -/
theorem value_label_zero_beme_counterexample :
    fxBeme0.beme = some 0
    ∧ (june_label_row fxAll fxBeme0).bm30 = some 1
    ∧ ((0 : ℚ) ≤ 0 ∧ (0 : ℚ) ≤ 1)
    ∧ (june_label_row fxAll fxBeme0).bmport = ""
    ∧ ("" : String) ≠ "L" := by
  have hb : nyse_breaks fxAll fxBeme0.jdate = some (25, 1, 2) := fx_breaks
  have helig : eligible fxBeme0 = false := rfl
  refine ⟨rfl, ?_, ⟨le_refl 0, by norm_num⟩, ?_, by simp⟩
  · simp [june_label_row, hb]
  · simp [june_label_row, helig]

/-- Concrete instantiation of `value_label_trichotomy`: the eligible fixture
record with `beme = 1 ≤ bm30 = 1` is labeled "L". -/
theorem value_label_trichotomy_witness :
    (june_label_row fxAll fxSmall).bmport = "L" := by
  have h := value_label_trichotomy fxAll fxSmall 25 1 2 fx_breaks (by norm_num)
  exact ((h.1 1 rfl (by norm_num) rfl (le_refl 1)).1).mpr (by norm_num)

/-- **C3 counterexample** — A June record with market equity 5 (≤ the size
breakpoint 25) but observation count 0: the claim assigns it "Small", while
the code's guard `count ≥ 1` fails and it receives the empty size label. -/
theorem size_label_guard_counterexample :
    fxCount0.me = some 5
    ∧ (june_label_row fxAll fxCount0).sizemedn = some 25
    ∧ ((5 : ℚ) ≤ 25)
    ∧ (june_label_row fxAll fxCount0).szport = ""
    ∧ ("" : String) ≠ "S" := by
  have hb : nyse_breaks fxAll fxCount0.jdate = some (25, 1, 2) := fx_breaks
  have helig : eligible fxCount0 = false := rfl
  refine ⟨rfl, ?_, by norm_num, ?_, by simp⟩
  · simp [june_label_row, hb]
  · simp [june_label_row, helig]

/-- Concrete instantiation of `size_label_dichotomy`: the eligible fixture
record with `me = 10 ≤ 25` is labeled "S". -/
theorem size_label_dichotomy_witness :
    (june_label_row fxAll fxSmall).szport = "S" := by
  have h := size_label_dichotomy fxAll fxSmall 25 1 2 fx_breaks
  exact ((h.1 10 rfl rfl (by norm_num) (le_refl 1)).1).mpr (by norm_num)

/-! ### Aggregation lemmas (claim C5) -/

theorem nanSum_pos_of_mem (l : List (Option ℚ))
    (h : ∀ o ∈ l, ∃ w, o = some w ∧ 0 < w) :
    (l = [] → nanSum l = 0) ∧ (l ≠ [] → 0 < nanSum l) := by
  induction l with
  | nil => simp [nanSum]
  | cons a as ih =>
    obtain ⟨w, haw, hw⟩ := h a (List.mem_cons_self a as)
    subst haw
    have hrest := ih (fun o ho => h o (List.mem_cons_of_mem _ ho))
    refine ⟨by simp, fun _ => ?_⟩
    have h0 : nanSum (some w :: as) = w + nanSum as := by
      simp [nanSum, List.filterMap_cons]
    rw [h0]
    rcases eq_or_ne as [] with hnil | hne
    · subst hnil
      simpa [nanSum] using hw
    · have := hrest.2 hne
      linarith

theorem ccm4_wt_pos (crsp3 : List MonthRow3) (june : List JuneLabeled)
    (x : LabeledMonth) (hx : x ∈ ccm4_of crsp3 june) :
    ∃ w, x.m.wt = some w ∧ 0 < w := by
  have hpred := (List.mem_filter.mp hx).2
  cases hlab : x.lab with
  | none => rw [hlab] at hpred; simp at hpred
  | some j =>
    rw [hlab] at hpred
    simp only [Bool.and_eq_true] at hpred
    exact oLt_zero_some _ hpred.1.1

/-- **C5** — For every `(month, size label, value label)` group of eligible
monthly records (members of `ccm4`, which all carry weight > 0): when the
group's total weight is zero the group is empty and the value-weighted return
is undefined — the total function propagates missing rather than raising;
when the group is nonempty the total weight is strictly positive and the
aggregator returns exactly `Σ(return × formation_weight) / Σ(formation_weight)`
(with pandas NaN-skipping sums). -/
theorem portfolio_wavg_spec (crsp3 : List MonthRow3) (june : List JuneLabeled)
    (d : ℕ) (sz bm : String) (g : List LabeledMonth)
    (hg : g = vw_group (ccm4_of crsp3 june) d sz bm) :
    (nanSum (g.map (fun x => x.m.wt)) = 0
        → g = [] ∧ vwret_of (ccm4_of crsp3 june) d sz bm = none)
    ∧ (g ≠ []
        → 0 < nanSum (g.map (fun x => x.m.wt))
          ∧ vwret_of (ccm4_of crsp3 june) d sz bm
              = some (nanSum (g.map (fun x => nanMul x.m.mthret x.m.wt))
                  / nanSum (g.map (fun x => x.m.wt)))) := by
  have hmem : ∀ x ∈ g, ∃ w, x.m.wt = some w ∧ 0 < w := by
    intro x hx
    rw [hg] at hx
    exact ccm4_wt_pos crsp3 june x (List.mem_filter.mp hx).1
  have hopt : ∀ o ∈ g.map (fun x => x.m.wt), ∃ w, o = some w ∧ 0 < w := by
    intro o ho
    obtain ⟨x, hx, rfl⟩ := List.mem_map.mp ho
    exact hmem x hx
  have hsum := nanSum_pos_of_mem _ hopt
  have hden : ((g.map (fun x => (x.m.mthret, x.m.wt))).map (fun p => p.2))
      = g.map (fun x => x.m.wt) := by
    rw [List.map_map]
    rfl
  have hnum : ((g.map (fun x => (x.m.mthret, x.m.wt))).map
        (fun p => nanMul p.1 p.2))
      = g.map (fun x => nanMul x.m.mthret x.m.wt) := by
    rw [List.map_map]
    rfl
  constructor
  · intro hz
    have hgnil : g = [] := by
      by_contra hne
      exact absurd hz (ne_of_gt (hsum.2 (by
        intro hmapnil
        exact hne (List.map_eq_nil_iff.mp hmapnil))))
    refine ⟨hgnil, ?_⟩
    rw [hgnil] at hg
    simp [vwret_of, ← hg, wavg, nanSum]
  · intro hne
    have hmapne : g.map (fun x => x.m.wt) ≠ [] := by
      intro hmapnil
      exact hne (List.map_eq_nil_iff.mp hmapnil)
    have hpos := hsum.2 hmapne
    refine ⟨hpos, ?_⟩
    simp only [vwret_of, ← hg, wavg, hden, hnum]
    rw [if_neg (ne_of_gt hpos)]

/-- Concrete instantiation of `portfolio_wavg_spec`: a singleton "SL" group
with return 1/20 and weight 100 yields value-weighted return
`(1/20 × 100) / 100 = 1/20`. -/
theorem portfolio_wavg_spec_witness :
    vwret_of
        (ccm4_of [⟨11, 7, some (1 / 20), some 100⟩]
          [⟨11, 5, none, none, none, "S", "L", 1, 1⟩]) 7 "S" "L"
      = some (1 / 20) := by
  have h := portfolio_wavg_spec [⟨11, 7, some (1 / 20), some 100⟩]
    [⟨11, 5, none, none, none, "S", "L", 1, 1⟩] 7 "S" "L"
    [⟨⟨11, 7, some (1 / 20), some 100⟩,
      some ⟨11, 5, none, none, none, "S", "L", 1, 1⟩⟩] rfl
  rw [(h.2 (by simp)).2]
  norm_num [nanSum, nanMul, List.filterMap_cons, List.filterMap_nil,
    List.sum_cons, List.sum_nil, id]

/-! ### Label-propagation lemmas (claim C9) -/

theorem filter_eq_singleton_of_unique {α : Type} [DecidableEq α]
    (l : List α) (p : α → Bool) (a : α)
    (ha : a ∈ l) (hpa : p a = true)
    (huniq : ∀ b ∈ l, p b = true → b = a) (hcount : l.count a = 1) :
    l.filter p = [a] := by
  induction l with
  | nil => simp at ha
  | cons x xs ih =>
    rw [List.count_cons] at hcount
    by_cases hx : x = a
    · subst hx
      have hxs : x ∉ xs := by
        intro hmem
        have hpos : 0 < xs.count x := List.count_pos_iff.mpr hmem
        simp at hcount
        omega
      rw [List.filter_cons_of_pos hpa]
      have hnil : xs.filter p = [] := by
        rw [List.filter_eq_nil_iff]
        intro b hb hpb
        exact hxs ((huniq b (List.mem_cons_of_mem _ hb) hpb) ▸ hb)
      rw [hnil]
    · have hpx : ¬ p x = true := by
        intro hpx
        exact hx (huniq x (List.mem_cons_self _ _) hpx)
      rw [List.filter_cons_of_neg hpx]
      apply ih
      · rcases List.mem_cons.mp ha with h | h
        · exact absurd h.symm hx
        · exact h
      · exact fun b hb hpb => huniq b (List.mem_cons_of_mem _ hb) hpb
      · simpa [hx] using hcount

/-- **C9** — For every security and formation year `Y`, every monthly record
with month-end date in the July(Y)–June(Y+1) window is left-merged, via the
join key `(permno, ffyear)`, with exactly the labels of the (unique) June-Y
formation record of that security: the labels carried by the monthly panel in
that twelve-month window are the June-Y labels, independent of the monthly
record's own data. -/
theorem label_propagation_window (june : List JuneLabeled) (r : MonthRow3)
    (j : JuneLabeled) (y : ℕ)
    (hj : j ∈ june) (hjp : j.permno = r.permno) (hjd : j.jdate = 12 * y + 5)
    (huniq : ∀ j2 ∈ june, j2.permno = r.permno → yearOf j2.jdate = y → j2 = j)
    (hcount : june.count j = 1)
    (hwin1 : 12 * y + 6 ≤ r.jdate) (hwin2 : r.jdate ≤ 12 * y + 17) :
    attach_june june r = [⟨r, some j⟩] := by
  have hffy : ffyearN r.jdate = y := by
    unfold ffyearN
    omega
  have hyear : yearOf j.jdate = y := by
    unfold yearOf
    omega
  have hmatch : june_matches june r.permno r.jdate = [j] := by
    unfold june_matches
    apply filter_eq_singleton_of_unique june _ j hj _ _ hcount
    · simp [hjp, hyear, hffy]
    · intro b hb hpb
      simp only [Bool.and_eq_true, decide_eq_true_eq] at hpb
      exact huniq b hb hpb.1 (by rw [hpb.2, hffy])
  unfold attach_june
  rw [hmatch]
  rfl

/-- Concrete instantiation of `label_propagation_window`: an August (year 0)
monthly record picks up exactly the labels of its security's June-year-0
formation record. -/
theorem label_propagation_window_witness :
    attach_june [⟨11, 5, none, none, none, "S", "L", 1, 1⟩]
        ⟨11, 8, some (1 / 20), some 100⟩
      = [⟨⟨11, 8, some (1 / 20), some 100⟩,
          some ⟨11, 5, none, none, none, "S", "L", 1, 1⟩⟩] := by
  apply label_propagation_window _ _ _ 0
  · simp
  · rfl
  · rfl
  · intro j2 h2 _ _
    simpa using h2
  · simp
  · decide
  · decide

/-! ### Market-equity aggregation lemmas (claim C7) -/

theorem filter_filterMap_list {α β : Type} (f : α → Option β) (p : β → Bool)
    (l : List α) :
    (l.filterMap f).filter p
      = l.filterMap (fun a =>
          (f a).bind (fun b => if p b then some b else none)) := by
  induction l with
  | nil => rfl
  | cons x xs ih =>
    cases hfx : f x with
    | none => simp [List.filterMap_cons, hfx, ih]
    | some b =>
      by_cases hpb : p b = true
      · simp [List.filterMap_cons, hfx, hpb, ih]
      · simp [List.filterMap_cons, hfx, hpb, ih]

theorem foldl_max_eq (xs : List ℚ) (a m : ℚ) (ha : a ≤ m)
    (hm : m = a ∨ m ∈ xs) (hub : ∀ x ∈ xs, x ≤ m) :
    xs.foldl max a = m := by
  induction xs generalizing a with
  | nil =>
    rcases hm with rfl | h
    · rfl
    · simp at h
  | cons x xs ih =>
    rw [List.foldl_cons]
    have hx : x ≤ m := hub x (List.mem_cons_self _ _)
    apply ih (max a x) (max_le ha hx)
    · rcases hm with rfl | hmem
      · exact Or.inl (max_eq_left hx).symm
      · rcases List.mem_cons.mp hmem with rfl | h
        · exact Or.inl (max_eq_right ha).symm
        · exact Or.inr h
    · exact fun t ht => hub t (List.mem_cons_of_mem _ ht)

theorem maxPme_eq (g : List CrspMe) (r : CrspMe) (hr : r ∈ g)
    (hub : ∀ s ∈ g, permno_me s ≤ permno_me r) :
    maxPme g = permno_me r := by
  cases g with
  | nil => simp at hr
  | cons s ss =>
    show (List.map permno_me ss).foldl max (permno_me s) = permno_me r
    apply foldl_max_eq
    · exact hub s (List.mem_cons_self _ _)
    · rcases List.mem_cons.mp hr with rfl | h
      · exact Or.inl rfl
      · exact Or.inr (List.mem_map_of_mem permno_me h)
    · intro x hx
      obtain ⟨t, ht, rfl⟩ := List.mem_map.mp hx
      exact hub t (List.mem_cons_of_mem _ ht)

theorem filterMap_eq_singleton {α β : Type} [DecidableEq α]
    (l : List α) (f : α → Option β) (a : α) (b : β)
    (ha : a ∈ l) (hcount : l.count a = 1) (hfa : f a = some b)
    (hother : ∀ x ∈ l, x ≠ a → f x = none) :
    l.filterMap f = [b] := by
  induction l with
  | nil => simp at ha
  | cons x xs ih =>
    rw [List.count_cons] at hcount
    rw [List.filterMap_cons]
    by_cases hx : x = a
    · subst hx
      rw [hfa]
      have hxs : x ∉ xs := by
        intro hmem
        have hpos : 0 < xs.count x := List.count_pos_iff.mpr hmem
        simp at hcount
        omega
      have hnil : xs.filterMap f = [] := by
        rw [List.filterMap_eq_nil_iff]
        intro y hy
        rcases eq_or_ne y x with rfl | hne
        · exact absurd hy hxs
        · rw [hother y (List.mem_cons_of_mem _ hy) hne]
      rw [hnil]
    · rw [hother x (List.mem_cons_self _ _) hx]
      apply ih
      · rcases List.mem_cons.mp ha with h | h
        · exact absurd h.symm hx
        · exact h
      · simpa [hx] using hcount
      · exact fun y hy hne => hother y (List.mem_cons_of_mem _ hy) hne

/-- **C7 (amended)** — With individual market equity `permno_me =
price × shares_outstanding` (signed price, as the code computes it), for
every `(month, parent entity)` group in which the maximum individual market
equity is attained by a unique row, the aggregator outputs exactly one row
for that entity-month: that maximal security, carrying company-level market
equity equal to the sum of the group's individual market equities. -/
theorem market_equity_aggregation (rows : List CrspMe) (d c : ℕ) (r : CrspMe)
    (hr : r ∈ rows) (hd : r.jdate = d) (hc : r.permco = c)
    (hmax : ∀ s ∈ rows, s.jdate = d → s.permco = c → s ≠ r
        → permno_me s < permno_me r)
    (hcount : rows.count r = 1) :
    (calculate_market_equity rows).filter
        (fun x => x.jdate = d && x.permco = c)
      = [⟨r.permno, c, d,
          ((rows.filter (fun s => s.jdate = d && s.permco = c)).map
              permno_me).sum⟩] := by
  have hgrp : ∀ s : CrspMe, s.jdate = d → s.permco = c →
      grpOf rows s = rows.filter (fun s2 => s2.jdate = d && s2.permco = c) := by
    intro s h1 h2
    unfold grpOf
    simp only [h1, h2]
  have hrg : r ∈ rows.filter (fun s2 => s2.jdate = d && s2.permco = c) :=
    List.mem_filter.mpr ⟨hr, by simp [hd, hc]⟩
  have hub : ∀ s ∈ rows.filter (fun s2 => s2.jdate = d && s2.permco = c),
      permno_me s ≤ permno_me r := by
    intro s hs
    obtain ⟨hsl, hsp⟩ := List.mem_filter.mp hs
    simp only [Bool.and_eq_true, decide_eq_true_eq] at hsp
    rcases eq_or_ne s r with rfl | hsr
    · exact le_refl _
    · exact le_of_lt (hmax s hsl hsp.1 hsp.2 hsr)
  have hmaxeq : maxPme (rows.filter (fun s2 => s2.jdate = d && s2.permco = c))
      = permno_me r := maxPme_eq _ r hrg hub
  unfold calculate_market_equity
  rw [filter_filterMap_list]
  apply filterMap_eq_singleton rows _ r _ hr hcount
  · show ((if permno_me r = maxPme (grpOf rows r) then
        some (⟨r.permno, r.permco, r.jdate,
          ((grpOf rows r).map permno_me).sum⟩ : MeRow) else none).bind
      (fun b => if (b.jdate = d && b.permco = c) then some b else none)) = _
    rw [hgrp r hd hc, hmaxeq, if_pos rfl, Option.some_bind]
    simp [hd, hc]
  · intro s hs hsr
    show ((if permno_me s = maxPme (grpOf rows s) then
        some (⟨s.permno, s.permco, s.jdate,
          ((grpOf rows s).map permno_me).sum⟩ : MeRow) else none).bind
      (fun b => if (b.jdate = d && b.permco = c) then some b else none)) = none
    by_cases hkey : s.jdate = d ∧ s.permco = c
    · have hne : permno_me s ≠ permno_me r :=
        ne_of_lt (hmax s hs hkey.1 hkey.2 hsr)
      rw [hgrp s hkey.1 hkey.2, hmaxeq, if_neg hne, Option.none_bind]
    · by_cases hcond : permno_me s = maxPme (grpOf rows s)
      · rw [if_pos hcond, Option.some_bind]
        rcases not_and_or.mp hkey with h | h <;> simp [h]
      · rw [if_neg hcond, Option.none_bind]

/-- **C7 counterexample** — Entity 7 in month 3 has three securities with
prices −10, 6, 30 and share counts 20, 25, 5.  Under the claim's
`|price| × shares` the market equities are 200, 150, 150, the canonical
security is permno 1 and the company market equity 500.  The code uses the
signed product, giving −200, 150, 150: permnos 2 and 3 tie for the maximum,
**two** rows are emitted (not exactly one), each carrying company market
equity −200 + 150 + 150 = 100, and permno 1 is dropped. -/
theorem market_equity_abs_counterexample :
    ((calculate_market_equity
          [⟨1, 7, 3, -10, 20⟩, ⟨2, 7, 3, 6, 25⟩, ⟨3, 7, 3, 30, 5⟩]).map
        (fun x => (x.permno, x.me)))
      = [(2, 100), (3, 100)]
    ∧ (calculate_market_equity
          [⟨1, 7, 3, -10, 20⟩, ⟨2, 7, 3, 6, 25⟩, ⟨3, 7, 3, 30, 5⟩]).length
        ≠ 1 := by
  have h1 : ((calculate_market_equity
        [⟨1, 7, 3, -10, 20⟩, ⟨2, 7, 3, 6, 25⟩, ⟨3, 7, 3, 30, 5⟩]).map
      (fun x => (x.permno, x.me)))
      = [(2, 100), (3, 100)] := by
    norm_num [calculate_market_equity, grpOf, maxPme, permno_me,
      List.filterMap_cons, List.filter_cons, max_def]
  refine ⟨h1, ?_⟩
  have h2 := congrArg List.length h1
  simp only [List.length_map] at h2
  rw [h2]
  decide

/-- Concrete instantiation of `market_equity_aggregation` (the spec's
scenario): two securities of entity 7 with market equities 50 and 150 yield
exactly one output row for that entity-month — the 150-security — carrying
company market equity 200. -/
theorem market_equity_aggregation_witness :
    (calculate_market_equity
          [⟨1, 7, 3, 10, 5⟩, ⟨2, 7, 3, 30, 5⟩]).filter
        (fun x => x.jdate = 3 && x.permco = 7)
      = [⟨2, 7, 3, 200⟩] := by
  rw [market_equity_aggregation [⟨1, 7, 3, 10, 5⟩, ⟨2, 7, 3, 30, 5⟩] 3 7
      ⟨2, 7, 3, 30, 5⟩ (by simp) rfl rfl ?hmax (by simp)]
  · norm_num [permno_me, List.filter_cons]
  case hmax =>
    intro s hs h1 h2 hne
    rcases List.mem_cons.mp hs with rfl | hs2
    · norm_num [permno_me]
    · rcases List.mem_cons.mp hs2 with rfl | hs3
      · exact absurd rfl hne
      · simp at hs3

/-! ### Temporal-aligner lemmas (claim C1) -/

theorem jdAt_ext (rows rows' : List MRow) (hlen : rows'.length = rows.length)
    (h : ∀ k < rows.length, jdAt rows' k = jdAt rows k) :
    ∀ k, jdAt rows' k = jdAt rows k := by
  intro k
  by_cases hk : k < rows.length
  · exact h k hk
  · unfold jdAt
    rw [List.getD_eq_default _ _ (by omega), List.getD_eq_default _ _ (by omega)]

theorem retxAt_ext (rows rows' : List MRow) (hlen : rows'.length = rows.length)
    (h : ∀ k < rows.length, retxAt rows' k = retxAt rows k) :
    ∀ k, retxAt rows' k = retxAt rows k := by
  intro k
  by_cases hk : k < rows.length
  · exact h k hk
  · unfold retxAt
    rw [List.getD_eq_default _ _ (by omega), List.getD_eq_default _ _ (by omega)]

/-- **C1 (amended)** — A security's formation weight at row `i` of its
chronologically sorted monthly panel depends only on dates, returns, and the
market-equity observations at rows strictly before `i`, **provided `i` is not
the security's very first observation** (`i ≥ 1`): any two series agreeing on
all dates and returns and on market equity before `i` produce the same weight
at `i`.  (At the first observation the source backs the lag out of the
same-month market equity, `me / (1 + retx)`, so the claim fails there.) -/
theorem wt_no_lookahead (rows rows' : List MRow) (i : ℕ)
    (hlen : rows'.length = rows.length)
    (hjd : ∀ k < rows.length, jdAt rows' k = jdAt rows k)
    (hretx : ∀ k < rows.length, retxAt rows' k = retxAt rows k)
    (hme : ∀ k < i, meAt rows' k = meAt rows k)
    (hsorted : ∀ k < rows.length, ∀ j < k, jdAt rows j < jdAt rows k)
    (hge6 : ∀ k < rows.length, 6 ≤ jdAt rows k)
    (hi : 1 ≤ i) (hilt : i < rows.length) :
    wt rows' i = wt rows i := by
  have hjdA : ∀ k, jdAt rows' k = jdAt rows k := jdAt_ext rows rows' hlen hjd
  have hretxA : ∀ k, retxAt rows' k = retxAt rows k :=
    retxAt_ext rows rows' hlen hretx
  have hcum : ∀ k, cumretx rows' k = cumretx rows k := by
    intro k
    unfold cumretx
    simp only [hjdA, hretxA]
  unfold wt
  simp only [hjdA]
  by_cases hm : ffmonthN (jdAt rows i) = 1
  · rw [if_pos hm, if_pos hm]
    unfold lagMe
    rw [if_neg (by omega), if_neg (by omega), hme (i - 1) (by omega)]
  · rw [if_neg hm, if_neg hm]
    have hlc : lagCumretx rows' i = lagCumretx rows i := by
      unfold lagCumretx
      simp only [hcum]
    have hmb : mebase rows' (ffyearN (jdAt rows i))
        = mebase rows (ffyearN (jdAt rows i)) := by
      unfold mebase
      rw [hlen]
      have hpred : (fun j => ffmonthN (jdAt rows' j) = 1
            && ffyearN (jdAt rows' j) = ffyearN (jdAt rows i))
          = (fun j => ffmonthN (jdAt rows j) = 1
            && ffyearN (jdAt rows j) = ffyearN (jdAt rows i)) := by
        funext j
        rw [hjdA]
      rw [hpred]
      cases hf : (List.range rows.length).find?
          (fun j => ffmonthN (jdAt rows j) = 1
            && ffyearN (jdAt rows j) = ffyearN (jdAt rows i)) with
      | none => simp
      | some j =>
        have hjlt : j < rows.length :=
          List.mem_range.mp (List.mem_of_find?_eq_some hf)
        have hjpred := List.find?_some hf
        simp only [Bool.and_eq_true, decide_eq_true_eq] at hjpred
        have hj6 : 6 ≤ jdAt rows j := hge6 j hjlt
        have hi6 : 6 ≤ jdAt rows i := hge6 i hilt
        have hjle : jdAt rows j ≤ jdAt rows i := by
          have h1 := hjpred.1
          have h2 := hjpred.2
          unfold ffmonthN at h1
          unfold ffyearN at h2
          omega
        have hjlei : j ≤ i := by
          by_contra hgt
          push_neg at hgt
          have := hsorted j hjlt i hgt
          omega
        show some (lagMe rows' j) = some (lagMe rows j)
        unfold lagMe
        by_cases hj0 : j = 0
        · subst hj0
          rw [if_pos rfl, if_pos rfl, hme 0 (by omega), hretxA 0]
        · rw [if_neg hj0, if_neg hj0, hme (j - 1) (by omega)]
    simp only [hlc, hmb]

/-- **C1 counterexample** — A security whose panel consists of a single July
observation (month-index 6, `retx = 0`): its formation weight at that month
is `me / (1 + retx)`, i.e. the same-month market equity.  Mutating the market
equity at that month (100 → 200) while holding all (vacuously, none) earlier
months fixed changes the weight at that month from 100 to 200, so the weight
is not a function of strictly-earlier observations only. -/
theorem wt_first_observation_counterexample :
    wt [⟨6, 100, 0⟩] 0 = some 100
    ∧ wt [⟨6, 200, 0⟩] 0 = some 200
    ∧ some (100 : ℚ) ≠ some (200 : ℚ) := by
  refine ⟨?_, ?_, by norm_num⟩
  · norm_num [wt, lagMe, meAt, retxAt, jdAt, ffmonthN, mrow0, List.getD]
  · norm_num [wt, lagMe, meAt, retxAt, jdAt, ffmonthN, mrow0, List.getD]

/-- Concrete instantiation of `wt_no_lookahead`: mutating the August
(non-first) market equity 110 → 999 leaves the August formation weight
unchanged. -/
theorem wt_no_lookahead_witness :
    wt [⟨6, 100, 0⟩, ⟨7, 999, 1 / 10⟩] 1
      = wt [⟨6, 100, 0⟩, ⟨7, 110, 1 / 10⟩] 1 := by
  apply wt_no_lookahead
  · rfl
  · intro k hk
    simp only [List.length_cons, List.length_nil] at hk
    interval_cases k <;> rfl
  · intro k hk
    simp only [List.length_cons, List.length_nil] at hk
    interval_cases k <;> rfl
  · intro k hk
    interval_cases k
    rfl
  · decide
  · decide
  · norm_num
  · norm_num
